import Mathlib

/-!
Verification of the kopia backup engine core: the vault authenticated-encryption
block codec, the vault item namespace and open protocol, the hierarchical ignore
engine, and the incremental uploader.  Each Go function is shallowly embedded as
an executable Lean definition; bytes are modelled as natural numbers and byte
slices as lists.
-/

namespace Kopia

/-! ## Byte-stream XOR (Go `cipher.NewCTR(...).XORKeyStream`)

AES-CTR produces a keystream determined by the key and the IV; `XORKeyStream`
XORs it bytewise into the data.  The keystream is abstracted as a function
from (key, iv, byte index) to a keystream byte; XORing the same stream twice
is the identity, which is all CTR-mode correctness needs. -/

/-- XOR a data stream with a keystream, starting at keystream index `i`. -/
def xorKS (ks : Nat → Nat) : Nat → List Nat → List Nat
  | _, [] => []
  | i, b :: rest => (b ^^^ ks i) :: xorKS ks (i + 1) rest

theorem xorKS_length (ks : Nat → Nat) (i : Nat) (l : List Nat) :
    (xorKS ks i l).length = l.length := by
  induction l generalizing i with
  | nil => rfl
  | cons b rest ih => simp [xorKS, ih]

theorem xorKS_xorKS (ks : Nat → Nat) (i : Nat) (l : List Nat) :
    xorKS ks i (xorKS ks i l) = l := by
  induction l generalizing i with
  | nil => rfl
  | cons b rest ih =>
    simp only [xorKS, List.cons.injEq]
    constructor
    · rw [Nat.xor_assoc, Nat.xor_self, Nat.xor_zero]
    · exact ih (i + 1)

/-! ## Crypto primitives

The Go code calls into `crypto/aes`, `crypto/hmac`, `crypto/sha256` and
`golang.org/x/crypto/hkdf`; these external primitives are abstracted as an
environment of pure functions.  `hmacSHA256` maps (key, message) to a tag;
the genuine primitive always produces 32 bytes (`sha256.Size`), which is
carried as a hypothesis where needed. -/

structure Crypto where
  /-- HMAC-SHA-256 of a message under a MAC key (32-byte output). -/
  hmacSHA256 : List Nat → List Nat → List Nat
  /-- AES-CTR keystream byte at a given index, for a given key and IV. -/
  ctrKeystream : List Nat → List Nat → Nat → Nat
  /-- HKDF-SHA-256 expansion: ikm (master key), salt (unique id), info
  (purpose label), output length. -/
  hkdf : List Nat → List Nat → List Nat → Nat → List Nat

/-- A crypto environment whose HMAC always produces 32-byte tags, as the real
HMAC-SHA-256 does. -/
def Crypto.HmacLen32 (C : Crypto) : Prop :=
  ∀ k m, (C.hmacSHA256 k m).length = 32

/-! ## Vault format and key derivation (`vault.go`) -/

/-- `vault.Format`: persisted plaintext header of a vault. -/
structure Format where
  version : String
  uniqueID : List Nat
  encryption : String
  checksum : String
  deriving DecidableEq, Repr

/-- The part of `vault.Vault` the block codec uses: the format and the derived
master key. -/
structure VaultCore where
  format : Format
  masterKey : List Nat
  deriving Repr

/-- `purposeAESKey = []byte("AES")`. -/
def purposeAESKey : List Nat := [65, 69, 83]

/-- `purposeChecksumSecret = []byte("CHECKSUM")`. -/
def purposeChecksumSecret : List Nat := [67, 72, 69, 67, 75, 83, 85, 77]

/-- `Vault.deriveKey`: HKDF with the master key as ikm, the unique id as salt
and the purpose label as info. -/
def deriveKey (C : Crypto) (v : VaultCore) (purpose : List Nat) (n : Nat) : List Nat :=
  C.hkdf v.masterKey v.format.uniqueID purpose n

/-- `Vault.newCipher`: returns no cipher for `"none"`, an AES cipher with a
derived 16/24/32-byte key for the aes variants, and an error otherwise.  The
cipher is represented by its key; the AES block size is 16 for every variant. -/
def newCipherKey (C : Crypto) (v : VaultCore) : Except String (Option (List Nat)) :=
  match v.format.encryption with
  | "none" => .ok none
  | "aes-128" => .ok (some (deriveKey C v purposeAESKey 16))
  | "aes-192" => .ok (some (deriveKey C v purposeAESKey 24))
  | "aes-256" => .ok (some (deriveKey C v purposeAESKey 32))
  | other => .error ("unsupported encryption format: " ++ other)

/-- AES block size: `aes.BlockSize = 16` for all key lengths. -/
def aesBlockSize : Nat := 16

/-- `Vault.newChecksum`: an HMAC-SHA-256 keyed with a derived 32-byte key, or
an error for an unsupported checksum format.  The hash is represented by its
key. -/
def newChecksumKey (C : Crypto) (v : VaultCore) : Except String (List Nat) :=
  match v.format.checksum with
  | "hmac-sha-256" => .ok (deriveKey C v purposeChecksumSecret 32)
  | other => .error ("unsupported checksum format: " ++ other)

/-! ## Encrypted-block write (`Vault.writeEncryptedBlock`)

The Go function draws `ivLength` random bytes; the randomness is passed in as
the `iv` argument.  Only the bytes handed to `Storage.PutBlock` are modelled
here; the storage write itself is modelled with the item operations below. -/

/-- The bytes `writeEncryptedBlock` persists for a given plaintext: the
plaintext itself when encryption is `"none"`, otherwise
`IV ++ CTR(key, IV, plaintext) ++ HMAC(macKey, IV ++ ciphertext)`. -/
def writeEncryptedBlockBytes (C : Crypto) (v : VaultCore) (iv content : List Nat) :
    Except String (List Nat) :=
  match newCipherKey C v with
  | .error e => .error e
  | .ok none => .ok content
  | .ok (some key) =>
    match newChecksumKey C v with
    | .error e => .error e
    | .ok macKey =>
      let body := xorKS (C.ctrKeystream key iv) 0 content
      let mac := C.hmacSHA256 macKey (iv ++ body)
      .ok (iv ++ body ++ mac)

/-! ## Block decryption (`Vault.decryptBlock`) -/

/-- Outcome of `decryptBlock`: success, an error return, or a Go runtime panic
(out-of-range slice index or a negative `make` length). -/
inductive DecryptResult where
  | ok (plain : List Nat)
  | err (msg : String)
  | panicked
  deriving DecidableEq, Repr

/-- `Vault.decryptBlock`.  `p := len(content) - hash.Size()` is a Go `int`;
when it is negative the slice expressions `content[0:p]` and `content[p:]`
panic, and when `len(content) - ivLength - hash.Size()` is negative the
`make([]byte, ...)` call panics — both are modelled as `.panicked`. -/
def decryptBlock (C : Crypto) (v : VaultCore) (content : List Nat) : DecryptResult :=
  match newCipherKey C v with
  | .error e => .err e
  | .ok none => .ok content
  | .ok (some key) =>
    match newChecksumKey C v with
    | .error e => .err e
    | .ok macKey =>
      if content.length < 32 then
        .panicked
      else if C.hmacSHA256 macKey (content.take (content.length - 32)) ≠
          content.drop (content.length - 32) then
        .err "cannot read encrypted block: incorrect checksum"
      else if content.length < aesBlockSize + 32 then
        .panicked
      else
        .ok (xorKS (C.ctrKeystream key (content.take aesBlockSize)) 0
          ((content.drop aesBlockSize).take (content.length - (aesBlockSize + 32))))

theorem aesBlockSize_eq : aesBlockSize = 16 := rfl

/-- The bytes `writeEncryptedBlock` persists, spelled out, when a cipher and a
checksum are configured. -/
theorem writeEncryptedBlockBytes_eq (C : Crypto) (v : VaultCore) (key macKey iv P : List Nat)
    (hcip : newCipherKey C v = .ok (some key))
    (hck : newChecksumKey C v = .ok macKey) :
    writeEncryptedBlockBytes C v iv P =
      .ok (iv ++ xorKS (C.ctrKeystream key iv) 0 P ++
        C.hmacSHA256 macKey (iv ++ xorKS (C.ctrKeystream key iv) 0 P)) := by
  simp only [writeEncryptedBlockBytes, hcip, hck]

/-- Core round-trip: decrypting an encrypted block with the same cipher and MAC
keys recovers the plaintext. -/
theorem decryptBlock_encrypted (C : Crypto) (v : VaultCore) (key macKey iv P : List Nat)
    (hC : C.HmacLen32) (hiv : iv.length = 16)
    (hcip : newCipherKey C v = .ok (some key))
    (hck : newChecksumKey C v = .ok macKey) :
    decryptBlock C v (iv ++ xorKS (C.ctrKeystream key iv) 0 P ++
      C.hmacSHA256 macKey (iv ++ xorKS (C.ctrKeystream key iv) 0 P)) = .ok P := by
  set ks := C.ctrKeystream key iv with hks
  set body := xorKS ks 0 P with hbody
  set mac := C.hmacSHA256 macKey (iv ++ body) with hmc
  have hbl : body.length = P.length := by rw [hbody]; exact xorKS_length ks 0 P
  have hml : mac.length = 32 := by rw [hmc]; exact hC macKey (iv ++ body)
  have hpre : (iv ++ body).length = 16 + P.length := by
    simp [List.length_append, hiv, hbl]
  have hlen : (iv ++ body ++ mac).length = 16 + P.length + 32 := by
    simp only [List.length_append, hiv, hbl, hml]
  simp only [decryptBlock, hcip, hck, aesBlockSize_eq]
  rw [if_neg (by omega)]
  have htake : (iv ++ body ++ mac).take ((iv ++ body ++ mac).length - 32) = iv ++ body := by
    rw [show (iv ++ body ++ mac).length - 32 = (iv ++ body).length by omega]
    exact List.take_left (iv ++ body) mac
  have hdrop : (iv ++ body ++ mac).drop ((iv ++ body ++ mac).length - 32) = mac := by
    rw [show (iv ++ body ++ mac).length - 32 = (iv ++ body).length by omega]
    exact List.drop_left (iv ++ body) mac
  rw [htake, hdrop, if_neg (not_not_intro hmc.symm), if_neg (by omega)]
  have htake16 : (iv ++ body ++ mac).take 16 = iv := by
    rw [List.append_assoc]
    exact List.take_left' hiv
  have hdrop16 : (iv ++ body ++ mac).drop 16 = body ++ mac := by
    rw [List.append_assoc]
    exact List.drop_left' hiv
  have htakeP : (body ++ mac).take ((iv ++ body ++ mac).length - (16 + 32)) = body := by
    rw [show (iv ++ body ++ mac).length - (16 + 32) = body.length by omega]
    exact List.take_left body mac
  rw [htake16, hdrop16, htakeP, ← hks, hbody, xorKS_xorKS]

/-- C1: For every encryption algorithm in `{none, aes-128, aes-192, aes-256}`,
every plaintext, master key and unique id, decrypting the result of the
vault's encrypted-block write yields the original plaintext; when the format's
encryption is `"none"`, both encrypt and decrypt return their input
unchanged. -/
theorem vault_encrypt_decrypt_roundtrip (C : Crypto) (v : VaultCore) (iv P : List Nat)
    (hC : C.HmacLen32) (hiv : iv.length = 16)
    (halg : v.format.encryption = "none" ∨ v.format.encryption = "aes-128" ∨
      v.format.encryption = "aes-192" ∨ v.format.encryption = "aes-256")
    (hck : v.format.checksum = "hmac-sha-256") :
    (∃ B, writeEncryptedBlockBytes C v iv P = .ok B ∧ decryptBlock C v B = .ok P) ∧
    (v.format.encryption = "none" →
      writeEncryptedBlockBytes C v iv P = .ok P ∧ ∀ Q, decryptBlock C v Q = .ok Q) := by
  have hckk : newChecksumKey C v = .ok (deriveKey C v purposeChecksumSecret 32) := by
    simp [newChecksumKey, hck]
  rcases halg with h | h | h | h
  · have hcip : newCipherKey C v = .ok none := by simp [newCipherKey, h]
    exact ⟨⟨P, by simp [writeEncryptedBlockBytes, hcip], by simp [decryptBlock, hcip]⟩,
      fun _ => ⟨by simp [writeEncryptedBlockBytes, hcip],
        fun Q => by simp [decryptBlock, hcip]⟩⟩
  all_goals {
    first
    | (have hcip : newCipherKey C v = .ok (some (deriveKey C v purposeAESKey 16)) := by
        simp [newCipherKey, h])
    | (have hcip : newCipherKey C v = .ok (some (deriveKey C v purposeAESKey 24)) := by
        simp [newCipherKey, h])
    | (have hcip : newCipherKey C v = .ok (some (deriveKey C v purposeAESKey 32)) := by
        simp [newCipherKey, h])
    refine ⟨⟨_, writeEncryptedBlockBytes_eq C v _ _ iv P hcip hckk,
      decryptBlock_encrypted C v _ _ iv P hC hiv hcip hckk⟩, fun hn => ?_⟩
    rw [h] at hn; simp at hn
  }

/-- Crypto environment used by witnesses: all-zero keystream, all-zero HMAC
tags, all-zero derived keys. -/
def cryptoZero : Crypto :=
  { hmacSHA256 := fun _ _ => List.replicate 32 0
    ctrKeystream := fun _ _ _ => 0
    hkdf := fun _ _ _ n => List.replicate n 0 }

/-- Concrete vault format used by witnesses (end-to-end scenario 1 of the
spec): aes-256 with hmac-sha-256, unique id of 32 bytes 0x11. -/
def fmtAES256 : Format :=
  { version := "1", uniqueID := List.replicate 32 17
    encryption := "aes-256", checksum := "hmac-sha-256" }

/-- Concrete vault core used by witnesses: master key of 32 zero bytes. -/
def vaultAES256 : VaultCore := { format := fmtAES256, masterKey := List.replicate 32 0 }

/-- The bytes of `"hello"`. -/
def helloBytes : List Nat := [104, 101, 108, 108, 111]

/-- An all-zero 16-byte IV. -/
def ivZero : List Nat := List.replicate 16 0

theorem vault_encrypt_decrypt_roundtrip_witness :
    ∃ B, writeEncryptedBlockBytes cryptoZero vaultAES256 ivZero helloBytes = .ok B ∧
      decryptBlock cryptoZero vaultAES256 B = .ok helloBytes :=
  (vault_encrypt_decrypt_roundtrip cryptoZero vaultAES256 ivZero helloBytes
    (fun k m => by simp [cryptoZero]) (by simp [ivZero])
    (Or.inr (Or.inr (Or.inr rfl))) rfl).1

/-- C3: For every plaintext and AES variant with hmac-sha-256 checksum, the
persisted block has exactly the layout
`IV ++ AES-CTR(key, IV, P) ++ HMAC-SHA-256(macKey, IV ++ ciphertext)`; its
length is `16 + |P| + 32` bytes, and the MAC input covers both the IV and the
ciphertext body. -/
theorem vault_encrypted_block_layout (C : Crypto) (v : VaultCore) (iv P : List Nat)
    (hC : C.HmacLen32) (hiv : iv.length = 16)
    (halg : v.format.encryption = "aes-128" ∨ v.format.encryption = "aes-192" ∨
      v.format.encryption = "aes-256")
    (hck : v.format.checksum = "hmac-sha-256") :
    ∃ key macKey, newCipherKey C v = .ok (some key) ∧ newChecksumKey C v = .ok macKey ∧
      writeEncryptedBlockBytes C v iv P =
        .ok (iv ++ xorKS (C.ctrKeystream key iv) 0 P ++
          C.hmacSHA256 macKey (iv ++ xorKS (C.ctrKeystream key iv) 0 P)) ∧
      ∀ B, writeEncryptedBlockBytes C v iv P = .ok B → B.length = 16 + P.length + 32 := by
  have hckk : newChecksumKey C v = .ok (deriveKey C v purposeChecksumSecret 32) := by
    simp [newChecksumKey, hck]
  simp only [Crypto.HmacLen32] at hC
  rcases halg with h | h | h
  all_goals {
    first
    | (have hcip : newCipherKey C v = .ok (some (deriveKey C v purposeAESKey 16)) := by
        simp [newCipherKey, h])
    | (have hcip : newCipherKey C v = .ok (some (deriveKey C v purposeAESKey 24)) := by
        simp [newCipherKey, h])
    | (have hcip : newCipherKey C v = .ok (some (deriveKey C v purposeAESKey 32)) := by
        simp [newCipherKey, h])
    refine ⟨_, _, hcip, hckk, writeEncryptedBlockBytes_eq C v _ _ iv P hcip hckk, ?_⟩
    intro B hB
    rw [writeEncryptedBlockBytes_eq C v _ _ iv P hcip hckk, Except.ok.injEq] at hB
    subst hB
    simp only [List.length_append, hiv, xorKS_length, hC]
  }

theorem vault_encrypted_block_layout_witness :
    ∃ B, writeEncryptedBlockBytes cryptoZero vaultAES256 ivZero helloBytes = .ok B ∧
      B.length = 53 := by
  obtain ⟨key, macKey, _, _, heq, hlen⟩ :=
    vault_encrypted_block_layout cryptoZero vaultAES256 ivZero helloBytes
      (fun k m => by simp [cryptoZero]) (by simp [ivZero])
      (Or.inr (Or.inr rfl)) rfl
  refine ⟨_, heq, ?_⟩
  have := hlen _ heq
  simpa [helloBytes] using this

/-! ## Tamper detection (C2) and missing length check (C9) -/

/-- Flip bit `k` of byte `j` of a block: a single-bit modification. -/
def flipBit (l : List Nat) (j k : Nat) : List Nat :=
  l.set j (l.getD j 0 ^^^ (1 <<< k))

theorem xor_shiftLeft_ne_self (b k : Nat) : b ^^^ (1 <<< k) ≠ b := by
  intro h
  have h2 : b ^^^ (b ^^^ (1 <<< k)) = b ^^^ b := congrArg (b ^^^ ·) h
  rw [← Nat.xor_assoc, Nat.xor_self, Nat.zero_xor] at h2
  rw [Nat.one_shiftLeft] at h2
  exact absurd h2 (Nat.two_pow_pos k).ne'

/-- Setting a list element to a different value changes the list. -/
theorem set_ne_of_lt (l : List Nat) (i x : Nat) (hi : i < l.length) (hx : x ≠ l[i]) :
    l.set i x ≠ l := by
  intro h
  have := congrArg (fun t => t[i]?) h
  simp only [List.getElem?_set_self hi, List.getElem?_eq_getElem hi, Option.some.injEq] at this
  exact hx this

/-- The checksum gate of `decryptBlock`: with an AES cipher configured,
decryption fails with the checksum error whenever the recomputed HMAC over the
leading bytes differs from the stored trailing 32 bytes. -/
theorem decryptBlock_checksum_mismatch (C : Crypto) (v : VaultCore) (key macKey : List Nat)
    (content : List Nat)
    (hcip : newCipherKey C v = .ok (some key))
    (hck : newChecksumKey C v = .ok macKey)
    (hlen : 32 ≤ content.length)
    (hne : C.hmacSHA256 macKey (content.take (content.length - 32)) ≠
      content.drop (content.length - 32)) :
    decryptBlock C v content = .err "cannot read encrypted block: incorrect checksum" := by
  simp only [decryptBlock, hcip, hck]
  rw [if_neg (by omega), if_pos hne]

/-- C2: For every encrypted vault block and every single-bit modification of
it, decryption fails with the checksum mismatch error: unconditionally for a
flip inside the trailing 32-byte tag, and for a flip in the IV or ciphertext
body whenever the HMAC of the modified leading region differs from the HMAC of
the original one (second-preimage resistance of HMAC-SHA-256 at this input);
moreover decryption reports the checksum error whenever the recomputed HMAC
differs from the stored tag, and succeeds only when they are equal. -/
theorem vault_decrypt_tamper_detection (C : Crypto) (v : VaultCore)
    (key macKey iv P : List Nat) (j k : Nat)
    (hC : C.HmacLen32) (hiv : iv.length = 16)
    (hcip : newCipherKey C v = .ok (some key))
    (hck : newChecksumKey C v = .ok macKey)
    (hj : j < 16 + P.length + 32) :
    (∀ content : List Nat, 32 ≤ content.length →
      C.hmacSHA256 macKey (content.take (content.length - 32)) ≠
        content.drop (content.length - 32) →
      decryptBlock C v content = .err "cannot read encrypted block: incorrect checksum") ∧
    (∀ content pl, decryptBlock C v content = .ok pl →
      C.hmacSHA256 macKey (content.take (content.length - 32)) =
        content.drop (content.length - 32)) ∧
    (16 + P.length ≤ j →
      decryptBlock C v (flipBit (iv ++ xorKS (C.ctrKeystream key iv) 0 P ++
          C.hmacSHA256 macKey (iv ++ xorKS (C.ctrKeystream key iv) 0 P)) j k) =
        .err "cannot read encrypted block: incorrect checksum") ∧
    (j < 16 + P.length →
      C.hmacSHA256 macKey ((flipBit (iv ++ xorKS (C.ctrKeystream key iv) 0 P ++
            C.hmacSHA256 macKey (iv ++ xorKS (C.ctrKeystream key iv) 0 P)) j k).take
          (16 + P.length)) ≠
        C.hmacSHA256 macKey (iv ++ xorKS (C.ctrKeystream key iv) 0 P) →
      decryptBlock C v (flipBit (iv ++ xorKS (C.ctrKeystream key iv) 0 P ++
          C.hmacSHA256 macKey (iv ++ xorKS (C.ctrKeystream key iv) 0 P)) j k) =
        .err "cannot read encrypted block: incorrect checksum") := by
  set ks := C.ctrKeystream key iv with hks
  set body := xorKS ks 0 P with hbody
  set mac := C.hmacSHA256 macKey (iv ++ body) with hmc
  have hbl : body.length = P.length := by rw [hbody]; exact xorKS_length ks 0 P
  have hml : mac.length = 32 := by rw [hmc]; exact hC macKey (iv ++ body)
  have hpre : (iv ++ body).length = 16 + P.length := by
    simp [List.length_append, hiv, hbl]
  have hBlen : (iv ++ body ++ mac).length = 16 + P.length + 32 := by
    simp only [List.length_append, hiv, hbl, hml]
  refine ⟨fun content h32 hne => decryptBlock_checksum_mismatch C v key macKey content
      hcip hck h32 hne, ?_, ?_, ?_⟩
  · intro content pl h
    simp only [decryptBlock, hcip, hck] at h
    split_ifs at h with h1 h2 h3
    exact not_not.mp h2
  · intro hjtag
    have hjB : j < (iv ++ body ++ mac).length := by omega
    have hloc : (iv ++ body).length ≤ j := by omega
    have hflip : flipBit (iv ++ body ++ mac) j k =
        (iv ++ body) ++ mac.set (j - (iv ++ body).length)
          ((iv ++ body ++ mac).getD j 0 ^^^ (1 <<< k)) := by
      unfold flipBit
      exact List.set_append_right _ _ hloc
    have hjmac : j - (iv ++ body).length < mac.length := by omega
    have hbyte : (iv ++ body ++ mac).getD j 0 = mac[j - (iv ++ body).length] := by
      rw [List.getD_eq_getElem _ _ hjB]
      exact List.getElem_append_right hloc
    have hsetne : mac.set (j - (iv ++ body).length)
        ((iv ++ body ++ mac).getD j 0 ^^^ (1 <<< k)) ≠ mac := by
      apply set_ne_of_lt _ _ _ hjmac
      rw [hbyte]
      exact xor_shiftLeft_ne_self _ k
    rw [hflip]
    apply decryptBlock_checksum_mismatch C v key macKey _ hcip hck
    · simp only [List.length_append, List.length_set, hiv, hbl, hml]; omega
    · have hL : ((iv ++ body) ++ mac.set (j - (iv ++ body).length)
          ((iv ++ body ++ mac).getD j 0 ^^^ (1 <<< k))).length - 32 = (iv ++ body).length := by
        simp only [List.length_append, List.length_set, hiv, hbl, hml]; omega
      rw [hL, List.take_left, List.drop_left, ← hmc]
      exact fun hEq => hsetne hEq.symm
  · intro hjpre hne
    have hloc : j < (iv ++ body).length := by omega
    have hflip : flipBit (iv ++ body ++ mac) j k =
        (iv ++ body).set j ((iv ++ body ++ mac).getD j 0 ^^^ (1 <<< k)) ++ mac := by
      unfold flipBit
      exact List.set_append_left _ _ hloc
    rw [hflip] at hne ⊢
    apply decryptBlock_checksum_mismatch C v key macKey _ hcip hck
    · simp only [List.length_append, List.length_set, hiv, hbl, hml]; omega
    · have hL : ((iv ++ body).set j ((iv ++ body ++ mac).getD j 0 ^^^ (1 <<< k)) ++ mac).length
          - 32 = ((iv ++ body).set j ((iv ++ body ++ mac).getD j 0 ^^^ (1 <<< k))).length := by
        simp only [List.length_append, List.length_set, hiv, hbl, hml]; omega
      rw [hL, List.take_left, List.drop_left, hmc]
      rw [List.take_left' (by simp only [List.length_set, hpre])] at hne
      exact hne

/-- Crypto environment for tamper witnesses: the HMAC is the byte sum of the
message (mod 256) followed by 31 zero bytes, so that single-bit flips in the
witness inputs visibly change the tag. -/
def cryptoSum : Crypto :=
  { hmacSHA256 := fun _ m => (m.foldl (· + ·) 0 % 256) :: List.replicate 31 0
    ctrKeystream := fun _ _ _ => 0
    hkdf := fun _ _ _ n => List.replicate n 0 }

/-- The encrypted block of `"hello"` under `cryptoSum` and `vaultAES256`. -/
def tamperBlock : List Nat :=
  ivZero ++ xorKS (cryptoSum.ctrKeystream (List.replicate 32 0) ivZero) 0 helloBytes ++
    cryptoSum.hmacSHA256 (List.replicate 32 0)
      (ivZero ++ xorKS (cryptoSum.ctrKeystream (List.replicate 32 0) ivZero) 0 helloBytes)

theorem vault_decrypt_tamper_detection_witness :
    decryptBlock cryptoSum vaultAES256 (List.replicate 33 7) =
      .err "cannot read encrypted block: incorrect checksum" ∧
    decryptBlock cryptoSum vaultAES256 (flipBit tamperBlock 52 0) =
      .err "cannot read encrypted block: incorrect checksum" ∧
    decryptBlock cryptoSum vaultAES256 (flipBit tamperBlock 0 0) =
      .err "cannot read encrypted block: incorrect checksum" := by
  have hC : cryptoSum.HmacLen32 := fun k m => by simp [cryptoSum]
  have hcip : newCipherKey cryptoSum vaultAES256 = .ok (some (List.replicate 32 0)) := by
    simp [newCipherKey, vaultAES256, fmtAES256, deriveKey, cryptoSum]
  have hck : newChecksumKey cryptoSum vaultAES256 = .ok (List.replicate 32 0) := by
    simp [newChecksumKey, vaultAES256, fmtAES256, deriveKey, cryptoSum]
  have hiv : ivZero.length = 16 := by simp [ivZero]
  have htag := vault_decrypt_tamper_detection cryptoSum vaultAES256
    (List.replicate 32 0) (List.replicate 32 0) ivZero helloBytes 52 0 hC hiv hcip hck
    (by decide)
  have hpre := vault_decrypt_tamper_detection cryptoSum vaultAES256
    (List.replicate 32 0) (List.replicate 32 0) ivZero helloBytes 0 0 hC hiv hcip hck
    (by decide)
  exact ⟨htag.1 (List.replicate 33 7) (by decide) (by decide),
    htag.2.2.1 (by decide), hpre.2.2.2 (by decide) (by decide)⟩

/-- C9 (amended): with an AES cipher and hmac-sha-256 configured, a stored
block shorter than 32 bytes makes `decryptBlock` panic on the negative
tag-split slice instead of returning an error, and no block shorter than the
48-byte minimum (16-byte IV plus 32-byte tag) ever decrypts successfully. -/
theorem decryptBlock_short_block (C : Crypto) (v : VaultCore) (key macKey : List Nat)
    (content : List Nat)
    (hcip : newCipherKey C v = .ok (some key))
    (hck : newChecksumKey C v = .ok macKey) :
    (content.length < 32 → decryptBlock C v content = .panicked) ∧
    (content.length < 48 → ∀ pl, decryptBlock C v content ≠ .ok pl) := by
  constructor
  · intro h
    simp only [decryptBlock, hcip, hck]
    rw [if_pos h]
  · intro h pl hok
    simp only [decryptBlock, hcip, hck, aesBlockSize_eq] at hok
    split_ifs at hok with h1 h2

theorem decryptBlock_short_block_witness :
    decryptBlock cryptoZero vaultAES256 (List.replicate 10 0) = .panicked ∧
    ∀ pl, decryptBlock cryptoZero vaultAES256 (List.replicate 40 1) ≠ .ok pl := by
  have hcip : newCipherKey cryptoZero vaultAES256 = .ok (some (List.replicate 32 0)) := by
    simp [newCipherKey, vaultAES256, fmtAES256, deriveKey, cryptoZero]
  have hck : newChecksumKey cryptoZero vaultAES256 = .ok (List.replicate 32 0) := by
    simp [newChecksumKey, vaultAES256, fmtAES256, deriveKey, cryptoZero]
  exact ⟨(decryptBlock_short_block cryptoZero vaultAES256 _ _ _ hcip hck).1 (by simp),
    (decryptBlock_short_block cryptoZero vaultAES256 _ _ _ hcip hck).2 (by simp)⟩

/-- C9, the claim as frozen, is false on the code: a 40-byte stored block —
shorter than the 48-byte minimum — whose tag does not match is rejected with
the ChecksumMismatch error, not a panic. -/
theorem decryptBlock_short_block_counterexample :
    decryptBlock cryptoZero vaultAES256 (List.replicate 40 1) =
      .err "cannot read encrypted block: incorrect checksum" := by
  decide

/-! ## Vault item operations (`Put`, `Get`, `Remove`, `List`) and the open
protocol (`Open`) -/

/-- `formatBlockID = "format"`. -/
def formatBlockID : String := "format"

/-- `repositoryConfigBlockID = "repo"`. -/
def repositoryConfigBlockID : String := "repo"

/-- `colocatedVaultItemPrefix = "VLT"`. -/
def colocatedVaultItemPref : String := "VLT"

/-- The opaque block store: a map from block ids to block bytes. -/
abbrev Storage := List (String × List Nat)

/-- `storage.GetBlock`: the most recently stored bytes under an id. -/
def lookupBlock (s : Storage) (id : String) : Option (List Nat) :=
  (s.find? (fun p => p.1 == id)).map (fun p => p.2)

/-- `storage.PutBlock` with overwrite semantics. -/
def putBlockStore (s : Storage) (id : String) (data : List Nat) : Storage :=
  (id, data) :: s

/-- One call made against the opaque block store. -/
inductive StorageOp where
  | putBlock (id : String) (data : List Nat)
  | getBlock (id : String)
  | deleteBlock (id : String)
  deriving DecidableEq, Repr

/-- `vault.Vault`: the codec core plus the item-key namespace string
(`itemPrefix` in the source). -/
structure Vault where
  core : VaultCore
  itemPref : String

/-- `isReservedName`: `"format"` and `"repo"` are reserved. -/
def isReservedName (itemID : String) : Bool :=
  itemID == formatBlockID || itemID == repositoryConfigBlockID

/-- The error message produced by `checkReservedName`. -/
def reservedNameMsg (itemID : String) : String :=
  "invalid vault item name: '" ++ itemID ++ "'"

/-- `Vault.Put`: reject reserved names before any storage access, otherwise
encrypt and write under `itemPrefix+itemID`.  Returns the result, the updated
store, and the storage operations performed. -/
def vPut (C : Crypto) (v : Vault) (s : Storage) (iv : List Nat)
    (itemID : String) (content : List Nat) :
    Except String Unit × Storage × List StorageOp :=
  if isReservedName itemID then
    (.error (reservedNameMsg itemID), s, [])
  else
    match writeEncryptedBlockBytes C v.core iv content with
    | .error e => (.error e, s, [])
    | .ok blockBytes =>
      (.ok (), putBlockStore s (v.itemPref ++ itemID) blockBytes,
        [.putBlock (v.itemPref ++ itemID) blockBytes])

/-- `Vault.Get` (via `readEncryptedBlock`): reject reserved names before any
storage access; a missing block becomes `ErrItemNotFound`; otherwise decrypt. -/
def vGet (C : Crypto) (v : Vault) (s : Storage) (itemID : String) :
    DecryptResult × List StorageOp :=
  if isReservedName itemID then
    (.err (reservedNameMsg itemID), [])
  else
    match lookupBlock s (v.itemPref ++ itemID) with
    | none => (.err "item not found", [.getBlock (v.itemPref ++ itemID)])
    | some content => (decryptBlock C v.core content, [.getBlock (v.itemPref ++ itemID)])

/-- `Vault.Remove`: reject reserved names before any storage access, otherwise
delete the underlying block. -/
def vRemove (v : Vault) (s : Storage) (itemID : String) :
    Except String Unit × Storage × List StorageOp :=
  if isReservedName itemID then
    (.error (reservedNameMsg itemID), s, [])
  else
    (.ok (), s.filter (fun p => p.1 != v.itemPref ++ itemID),
      [.deleteBlock (v.itemPref ++ itemID)])

/-- `strings.TrimPrefix(s, pre)`. -/
def trimPref (pre s : String) : String :=
  if pre.isPrefixOf s then s.drop pre.length else s

/-- The loop of `Vault.List` over the block stream: an error item ends the
stream, returning the ids accumulated so far; reserved ids (after stripping
the item key namespace) are skipped. -/
def vListLoop (itemPref : String) :
    List (Sum String String) → List String → List String × Option String
  | [], acc => (acc, none)
  | .inl e :: _, acc => (acc, some e)
  | .inr bid :: rest, acc =>
    if isReservedName (trimPref itemPref bid) then vListLoop itemPref rest acc
    else vListLoop itemPref rest (acc ++ [trimPref itemPref bid])

/-- `Vault.List`: stream the block ids under `itemPrefix+prefix` through the
filtering loop. -/
def vList (v : Vault) (s : Storage) (pre : String) : List String × Option String :=
  vListLoop v.itemPref
    (((s.map Prod.fst).filter (fun id => (v.itemPref ++ pre).isPrefixOf id)).map .inr) []

theorem vListLoop_not_mem (itemPref : String) (id : String)
    (hres : isReservedName id = true) :
    ∀ stream acc, id ∉ acc → id ∉ (vListLoop itemPref stream acc).1 := by
  intro stream
  induction stream with
  | nil => intro acc hacc; exact hacc
  | cons hd rest ih =>
    intro acc hacc
    cases hd with
    | inl e => exact hacc
    | inr bid =>
      simp only [vListLoop]
      split_ifs with hr
      · exact ih acc hacc
      · refine ih _ ?_
        intro hmem
        rcases List.mem_append.mp hmem with h | h
        · exact hacc h
        · rw [List.mem_singleton] at h
          subst h
          rw [hres] at hr
          exact hr rfl

/-- C8: For every vault and both reserved item ids `"format"` and `"repo"`:
`Put`, `Get` and `Remove` on that id fail with the reserved-name error without
touching storage, and `List` never includes a reserved id in its results. -/
theorem vault_reserved_names (C : Crypto) (v : Vault) (s : Storage)
    (iv content : List Nat) (itemID : String)
    (hid : itemID = formatBlockID ∨ itemID = repositoryConfigBlockID) :
    vPut C v s iv itemID content = (.error (reservedNameMsg itemID), s, []) ∧
    vGet C v s itemID = (.err (reservedNameMsg itemID), []) ∧
    vRemove v s itemID = (.error (reservedNameMsg itemID), s, []) ∧
    (∀ stream, itemID ∉ (vListLoop v.itemPref stream []).1) ∧
    (∀ pre, itemID ∉ (vList v s pre).1) := by
  have hres : isReservedName itemID = true := by
    rcases hid with h | h <;> simp [isReservedName, h]
  refine ⟨by simp [vPut, hres], by simp [vGet, hres], by simp [vRemove, hres],
    fun stream => vListLoop_not_mem v.itemPref itemID hres stream [] (by simp),
    fun pre => vListLoop_not_mem v.itemPref itemID hres _ [] (by simp)⟩

theorem vault_reserved_names_witness :
    vGet cryptoZero ⟨vaultAES256, ""⟩ [] "format" =
      (.err "invalid vault item name: 'format'", []) ∧
    "repo" ∉ (vListLoop "VLT" [.inr "VLTrepo", .inr "VLTalpha"] []).1 := by
  refine ⟨?_, ?_⟩
  · exact (vault_reserved_names cryptoZero ⟨vaultAES256, ""⟩ [] [] [] "format"
      (Or.inl rfl)).2.1
  · exact (vault_reserved_names cryptoZero ⟨vaultAES256, "VLT"⟩ [] [] []
      "repo" (Or.inr rfl)).2.2.2.1 [.inr "VLTrepo", .inr "VLTalpha"]

/-! ## Vault open protocol (`vault.Open`)

`Open` issues four reads — `format`, `repo`, `VLTformat`, `VLTrepo` — against
the opaque store (their concurrency is unobservable: each read is independent
and all are joined before any result is used), then selects the variant whose
format block exists, preferring the unprefixed one.  `json.Unmarshal` and
`Credentials.getMasterKey` are external and abstracted as an environment of
pure functions. -/

/-- `vault.RepositoryConfig`, as produced by parsing the decrypted `repo`
block; its contents are opaque to the open protocol. -/
structure RepositoryConfig where
  payload : List Nat
  deriving DecidableEq, Repr

/-- External functions used by `Open`: JSON parsing and master key
derivation from credentials. -/
structure OpenEnv where
  parseFormat : List Nat → Option Format
  parseRepoConfig : List Nat → Option RepositoryConfig
  getMasterKey : List Nat → List Nat

/-- The fields of the `Vault` value `Open` returns. -/
structure OpenedVault where
  format : Format
  masterKey : List Nat
  itemPref : String
  repoConfig : RepositoryConfig
  deriving DecidableEq, Repr

/-- How `Open` can fail. -/
inductive OpenError where
  | formatMissing
  | formatParse
  | decryptFailed (msg : String)
  | panicked
  | repoConfigParse
  deriving DecidableEq, Repr

/-- `vault.Open`. -/
def openVault (C : Crypto) (env : OpenEnv) (s : Storage) : Except OpenError OpenedVault :=
  if lookupBlock s formatBlockID = none ∧
      lookupBlock s (colocatedVaultItemPref ++ formatBlockID) = none then
    .error .formatMissing
  else
    match env.parseFormat ((if lookupBlock s formatBlockID = none then
        lookupBlock s (colocatedVaultItemPref ++ formatBlockID)
      else lookupBlock s formatBlockID).getD []) with
    | none => .error .formatParse
    | some fmt =>
      match decryptBlock C ⟨fmt, env.getMasterKey fmt.uniqueID⟩
          ((if lookupBlock s formatBlockID = none then
            lookupBlock s (colocatedVaultItemPref ++ repositoryConfigBlockID)
          else lookupBlock s repositoryConfigBlockID).getD []) with
      | .err e => .error (.decryptFailed e)
      | .panicked => .error .panicked
      | .ok cfgData =>
        match env.parseRepoConfig cfgData with
        | none => .error .repoConfigParse
        | some rc =>
          .ok { format := fmt, masterKey := env.getMasterKey fmt.uniqueID
                itemPref := if lookupBlock s formatBlockID = none then
                  colocatedVaultItemPref else ""
                repoConfig := rc }

/-- C7: `Open` fails with the format-missing error exactly when both the
unprefixed `format` block and the `VLTformat` block are absent; otherwise it
selects the variant whose format block was found (preferring the unprefixed
one when both exist), setting `item_prefix` to `""` for the unprefixed variant
and `"VLT"` for the prefixed one and parsing the format from the selected
block. -/
theorem vault_open_variant_selection (C : Crypto) (env : OpenEnv) (s : Storage) :
    (openVault C env s = .error .formatMissing ↔
      lookupBlock s formatBlockID = none ∧
        lookupBlock s (colocatedVaultItemPref ++ formatBlockID) = none) ∧
    (∀ v, openVault C env s = .ok v →
      ((lookupBlock s formatBlockID).isSome →
        v.itemPref = "" ∧
          env.parseFormat ((lookupBlock s formatBlockID).getD []) = some v.format) ∧
      (lookupBlock s formatBlockID = none →
        (lookupBlock s (colocatedVaultItemPref ++ formatBlockID)).isSome ∧
          v.itemPref = colocatedVaultItemPref ∧
          env.parseFormat
              ((lookupBlock s (colocatedVaultItemPref ++ formatBlockID)).getD [])
            = some v.format)) := by
  constructor
  · constructor
    · intro h
      by_contra hb
      rw [openVault, if_neg hb] at h
      split at h
      · simp at h
      · split at h
        · simp at h
        · simp at h
        · split at h
          · simp at h
          · simp at h
    · intro hb
      rw [openVault, if_pos hb]
  · intro v hv
    by_cases hb0 : lookupBlock s formatBlockID = none
    · by_cases hb2 : lookupBlock s (colocatedVaultItemPref ++ formatBlockID) = none
      · rw [openVault, if_pos ⟨hb0, hb2⟩] at hv
        simp at hv
      · rw [openVault, if_neg (fun hand => hb2 hand.2)] at hv
        rw [if_pos hb0, if_pos hb0] at hv
        refine ⟨fun hsome => ?_, fun _ => ?_⟩
        · rw [hb0] at hsome
          simp at hsome
        cases hpf : env.parseFormat
            ((lookupBlock s (colocatedVaultItemPref ++ formatBlockID)).getD []) with
        | none => rw [hpf] at hv; simp at hv
        | some fmt =>
          rw [hpf] at hv
          dsimp only at hv
          cases hdec : decryptBlock C ⟨fmt, env.getMasterKey fmt.uniqueID⟩
              ((lookupBlock s (colocatedVaultItemPref ++ repositoryConfigBlockID)).getD []) with
          | err e => rw [hdec] at hv; simp at hv
          | panicked => rw [hdec] at hv; simp at hv
          | ok cfgData =>
            rw [hdec] at hv
            dsimp only at hv
            cases hrc : env.parseRepoConfig cfgData with
            | none => rw [hrc] at hv; simp at hv
            | some rc =>
              rw [hrc] at hv
              dsimp only at hv
              rw [Except.ok.injEq] at hv
              subst hv
              exact ⟨Option.isSome_iff_ne_none.mpr hb2, by simp [hb0], rfl⟩
    · rw [openVault, if_neg (fun hand => hb0 hand.1)] at hv
      rw [if_neg hb0, if_neg hb0] at hv
      refine ⟨fun _ => ?_, fun hnone => absurd hnone hb0⟩
      cases hpf : env.parseFormat ((lookupBlock s formatBlockID).getD []) with
      | none => rw [hpf] at hv; simp at hv
      | some fmt =>
        rw [hpf] at hv
        dsimp only at hv
        cases hdec : decryptBlock C ⟨fmt, env.getMasterKey fmt.uniqueID⟩
            ((lookupBlock s repositoryConfigBlockID).getD []) with
        | err e => rw [hdec] at hv; simp at hv
        | panicked => rw [hdec] at hv; simp at hv
        | ok cfgData =>
          rw [hdec] at hv
          dsimp only at hv
          cases hrc : env.parseRepoConfig cfgData with
          | none => rw [hrc] at hv; simp at hv
          | some rc =>
            rw [hrc] at hv
            dsimp only at hv
            rw [Except.ok.injEq] at hv
            subst hv
            exact ⟨by simp [hb0], rfl⟩

/-- A format with `"none"` encryption, for the open-protocol witness. -/
def fmtNone : Format :=
  { version := "1", uniqueID := [], encryption := "none", checksum := "hmac-sha-256" }

/-- Parsing environment for the open-protocol witness. -/
def openEnvW : OpenEnv :=
  { parseFormat := fun b => if b = [0] then some fmtNone else none
    parseRepoConfig := fun b => if b = [1] then some ⟨[1]⟩ else none
    getMasterKey := fun u => u }

/-- Store holding an unprefixed `format`/`repo` pair. -/
def storeW : Storage := [("format", [0]), ("repo", [1])]

theorem vault_open_variant_selection_witness :
    openVault cryptoZero openEnvW [] = .error .formatMissing ∧
    ∃ v, openVault cryptoZero openEnvW storeW = .ok v ∧ v.itemPref = "" ∧
      openEnvW.parseFormat ((lookupBlock storeW formatBlockID).getD []) = some v.format := by
  have hopen : openVault cryptoZero openEnvW storeW = .ok
      { format := fmtNone, masterKey := [], itemPref := "", repoConfig := ⟨[1]⟩ } := by
    rfl
  refine ⟨(vault_open_variant_selection cryptoZero openEnvW []).1.mpr ⟨rfl, rfl⟩, ?_⟩
  obtain ⟨h1, _⟩ := (vault_open_variant_selection cryptoZero openEnvW storeW).2 _ hopen
  exact ⟨_, hopen, h1 rfl⟩

end Kopia

/-!
## The ignore engine (`fs/ignorefs/ignorefs.go`)

`ignore.Matcher` is a predicate on (path, isDir); `ignore.ParseGitIgnore` is
external and abstracted as a parsing environment.  Ignore callbacks are
identified by numbers and their invocations are recorded as events, so that
"the same callback invocations" is observable.
-/

namespace IgnoreFS

/-- `ignore.Matcher`: a predicate on a path and whether the entry is a
directory. -/
abbrev Matcher := String → Bool → Bool

/-- The type of a directory entry (`fs.Entry`; `fs.File` ⇔ `.file`,
`fs.Directory` ⇔ `.dir`). -/
inductive EntryKind where
  | file
  | dir
  | other
  deriving DecidableEq, Repr

/-- An `fs.Entry` as the ignore engine observes it: name, kind, size, and —
for files — the result of opening it and scanning its lines. -/
structure Entry where
  name : String
  kind : EntryKind
  size : Int
  openErr : Option String
  lines : List String
  deriving DecidableEq, Repr

/-- `fs.Entry.IsDir`. -/
def Entry.isDir (e : Entry) : Bool := e.kind == .dir

/-- One ignore-callback invocation: the callback id and the `(path, entry)`
arguments it received. -/
abbrev Event := Nat × String × Entry

/-- One `ignoreContext` frame; the parent chain is the tail of the list the
frame heads.  Callbacks are stored as ids. -/
structure CtxFrame where
  onIgnore : List Nat
  dotIgnoreFiles : List String
  matchers : List Matcher
  maxFileSize : Int

/-- The context chain (`*ignoreContext` with its parent pointers): the head is
the innermost context, `[]` stands for a nil parent pointer. -/
abbrev Ctx := List CtxFrame

/-- `ignoreContext.shouldIncludeByName`: walk the matchers of this context; on
the first hit fire every ignore callback of this context and exclude the
entry; otherwise recurse into the parent chain.  Returns the decision and the
callback invocations made. -/
def shouldIncludeByName : Ctx → String → Entry → Bool × List Event
  | [], _, _ => (true, [])
  | f :: rest, path, e =>
    if f.matchers.any (fun m => m path e.isDir) then
      (false, f.onIgnore.map (fun cb => (cb, path, e)))
    else shouldIncludeByName rest path e

/-- `maxFileSize` of the current (innermost) context. -/
def headMaxFileSize (ctx : Ctx) : Int := (ctx.head?.map (fun f => f.maxFileSize)).getD 0

/-- `dotIgnoreFiles` of the current (innermost) context. -/
def headDotFiles (ctx : Ctx) : List String := (ctx.head?.map (fun f => f.dotIgnoreFiles)).getD []

/-- `onIgnore` of the current (innermost) context. -/
def headOnIgnore (ctx : Ctx) : List Nat := (ctx.head?.map (fun f => f.onIgnore)).getD []

theorem headMaxFileSize_cons (f : CtxFrame) (ctx : Ctx) :
    headMaxFileSize (f :: ctx) = f.maxFileSize := rfl

/-- The filtering loop of `ignoreDirectory.Readdir`: drop entries the context
excludes (recording the callback invocations), silently drop entries larger
than the effective `maxFileSize`, keep the rest in order. -/
def filterEntries (ctx : Ctx) (relPath : String) : List Entry → List Entry × List Event
  | [] => ([], [])
  | e :: rest =>
    let d := shouldIncludeByName ctx (relPath ++ "/" ++ e.name) e
    let r := filterEntries ctx relPath rest
    if !d.1 then (r.1, d.2 ++ r.2)
    else if headMaxFileSize ctx > 0 ∧ e.size > headMaxFileSize ctx then r
    else (e :: r.1, r.2)

/-- `FilesPolicy`, as used by the ignore engine. -/
structure FilesPolicy where
  dotIgnoreFiles : List String
  ignoreRules : List String
  maxFileSize : Int
  noParentDotIgnoreFiles : Bool
  noParentIgnoreRules : Bool

/-- `combineAndDedupe`: concatenate, keeping the first occurrence of each
string. -/
def combineAndDedupe (slices : List (List String)) : List String :=
  slices.flatten.foldl (fun acc it => if it ∈ acc then acc else acc ++ [it]) []

/-- The loop appending policy-level rules (`overrideFromPolicy`, bottom). -/
def appendPolicyRules (parseGI : String → String → Except String Matcher)
    (dirPath : String) : List String → CtxFrame → Except String CtxFrame
  | [], c => .ok c
  | rule :: rest, c =>
    match parseGI dirPath rule with
    | .error e => .error ("unable to parse ignore entry " ++ dirPath ++ ": " ++ e)
    | .ok m => appendPolicyRules parseGI dirPath rest { c with matchers := c.matchers ++ [m] }

/-- `ignoreContext.overrideFromPolicy`: clear the corresponding field of the
new context when a no-parent flag is set, merge-and-dedupe dotfile lists,
override a nonzero `maxFileSize`, and append the policy's parsed rules. -/
def overrideFromPolicy (parseGI : String → String → Except String Matcher)
    (policy : FilesPolicy) (dirPath : String) (c : CtxFrame) : Except String CtxFrame :=
  let c1 := if policy.noParentDotIgnoreFiles then { c with dotIgnoreFiles := [] } else c
  let c2 := if policy.noParentIgnoreRules then { c1 with matchers := [] } else c1
  let c3 := { c2 with dotIgnoreFiles := combineAndDedupe [c2.dotIgnoreFiles, policy.dotIgnoreFiles] }
  let c4 := if policy.maxFileSize ≠ 0 then { c3 with maxFileSize := policy.maxFileSize } else c3
  appendPolicyRules parseGI dirPath policy.ignoreRules c4

/-- `parseIgnoreFile` line loop: skip `#` comments and blank lines, parse the
rest. -/
def parseLines (parseGI : String → String → Except String Matcher)
    (baseDir : String) : List String → Except String (List Matcher)
  | [] => .ok []
  | line :: rest =>
    if line.startsWith "#" then parseLines parseGI baseDir rest
    else if line.trim = "" then parseLines parseGI baseDir rest
    else
      match parseGI baseDir line with
      | .error e => .error ("unable to parse ignore entry " ++ line ++ ": " ++ e)
      | .ok m => (parseLines parseGI baseDir rest).map (fun ms => m :: ms)

/-- `parseIgnoreFile`: open the dotfile and parse its lines. -/
def parseIgnoreFileLines (parseGI : String → String → Except String Matcher)
    (baseDir : String) (f : Entry) : Except String (List Matcher) :=
  match f.openErr with
  | some e => .error ("unable to open ignore file: " ++ e)
  | none => parseLines parseGI baseDir f.lines

/-- `ignoreContext.loadDotIgnoreFiles`: for each effective dotfile name found
in the listing as a file, parse it and append its matchers. -/
def loadDotIgnoreFiles (parseGI : String → String → Except String Matcher)
    (dirPath : String) (entries : List Entry) :
    List String → CtxFrame → Except String CtxFrame
  | [], c => .ok c
  | df :: rest, c =>
    match entries.find? (fun e => e.name == df) with
    | none => loadDotIgnoreFiles parseGI dirPath entries rest c
    | some e =>
      if e.kind == .file then
        match parseIgnoreFileLines parseGI dirPath e with
        | .error msg => .error ("unable to parse ignore file " ++ e.name ++ ": " ++ msg)
        | .ok ms =>
          loadDotIgnoreFiles parseGI dirPath entries rest { c with matchers := c.matchers ++ ms }
      else loadDotIgnoreFiles parseGI dirPath entries rest c

/-- `ignoreDirectory.buildContext`: compute the effective dotfile list, scan
the listing for dotfiles, reuse the parent context when no dotfile and no
policy applies, otherwise build a child frame (empty own matchers, parent's
callbacks and `maxFileSize`), apply the policy override and load the
dotfiles. -/
def buildContext (parseGI : String → String → Except String Matcher)
    (getter : String → Option FilesPolicy) (parentCtx : Ctx)
    (relPath : String) (entries : List Entry) : Except String Ctx :=
  let policy := getter relPath
  let effectiveDotFiles :=
    match policy with
    | some p => p.dotIgnoreFiles
    | none => headDotFiles parentCtx
  if !(effectiveDotFiles.any (fun df => (entries.find? (fun e => e.name == df)).isSome)) ∧
      policy.isNone then
    .ok parentCtx
  else
    match (match policy with
           | some p => overrideFromPolicy parseGI p relPath
             { onIgnore := headOnIgnore parentCtx
               dotIgnoreFiles := effectiveDotFiles
               matchers := []
               maxFileSize := headMaxFileSize parentCtx }
           | none => .ok
             { onIgnore := headOnIgnore parentCtx
               dotIgnoreFiles := effectiveDotFiles
               matchers := []
               maxFileSize := headMaxFileSize parentCtx }) with
    | .error e => .error e
    | .ok frame1 =>
      match loadDotIgnoreFiles parseGI relPath entries effectiveDotFiles frame1 with
      | .error e => .error e
      | .ok frame2 => .ok (frame2 :: parentCtx)

/-- `ignoreDirectory.Readdir` on one listing: build the context for this
directory and filter the entries through it. -/
def readdirIgnore (parseGI : String → String → Except String Matcher)
    (getter : String → Option FilesPolicy) (parentCtx : Ctx)
    (relPath : String) (entries : List Entry) : Except String (List Entry × List Event) :=
  match buildContext parseGI getter parentCtx relPath entries with
  | .error e => .error e
  | .ok ctx => .ok (filterEntries ctx relPath entries)

/-! ### C4: `no_parent_ignore_rules` does not strip inherited matchers

`overrideFromPolicy` clears `c.matchers` of the freshly built child frame —
which is already empty — while `shouldIncludeByName` still recurses into the
parent chain, so matchers declared in ancestor contexts keep applying. -/

/-- A parent-context matcher ignoring exactly the path `"./a/x"`. -/
def c4Matcher : Matcher := fun path _ => path == "./a/x"

/-- A root ignore context carrying the parent rule. -/
def c4Root : CtxFrame :=
  { onIgnore := [], dotIgnoreFiles := [], matchers := [c4Matcher], maxFileSize := 0 }

/-- A policy at `"./a"` setting only `no_parent_ignore_rules`. -/
def c4Policy : FilesPolicy :=
  { dotIgnoreFiles := [], ignoreRules := [], maxFileSize := 0
    noParentDotIgnoreFiles := false, noParentIgnoreRules := true }

/-- The policy getter mapping `"./a"` to that policy. -/
def c4Getter : String → Option FilesPolicy :=
  fun p => if p = "./a" then some c4Policy else none

/-- The single entry `x` of directory `"./a"`. -/
def c4Entry : Entry := { name := "x", kind := .file, size := 1, openErr := none, lines := [] }

/-- A rule parser that is never consulted on this input. -/
def c4Parse : String → String → Except String Matcher := fun _ _ => .error "unused"

/-- C4 fails on the code: listing `"./a"`, whose policy sets
`no_parent_ignore_rules`, still drops the entry `x` that only a parent-context
rule matches — `Readdir` returns the empty listing instead of `[x]`, because
`shouldIncludeByName` walks the parent chain and the cleared field was the
child's own, freshly empty, matcher list. -/
theorem ignorefs_no_parent_ignore_rules_bug :
    readdirIgnore c4Parse c4Getter [c4Root] "./a" [c4Entry] = .ok ([], []) := by
  rfl

/-! ### C6: reusing the parent context equals building a fresh child -/

/-- The context `buildContext` would construct had it not taken the
reuse-parent shortcut; from the spec's words "constructing a fresh child
context for that directory", the comparison side of the refinement claim. -/
def buildContextNoReuse (parseGI : String → String → Except String Matcher)
    (getter : String → Option FilesPolicy) (parentCtx : Ctx)
    (relPath : String) (entries : List Entry) : Except String Ctx :=
  let policy := getter relPath
  let effectiveDotFiles :=
    match policy with
    | some p => p.dotIgnoreFiles
    | none => headDotFiles parentCtx
  match (match policy with
         | some p => overrideFromPolicy parseGI p relPath
           { onIgnore := headOnIgnore parentCtx
             dotIgnoreFiles := effectiveDotFiles
             matchers := []
             maxFileSize := headMaxFileSize parentCtx }
         | none => .ok
           { onIgnore := headOnIgnore parentCtx
             dotIgnoreFiles := effectiveDotFiles
             matchers := []
             maxFileSize := headMaxFileSize parentCtx }) with
  | .error e => .error e
  | .ok frame1 =>
    match loadDotIgnoreFiles parseGI relPath entries effectiveDotFiles frame1 with
    | .error e => .error e
    | .ok frame2 => .ok (frame2 :: parentCtx)

theorem shouldInclude_cons_empty (f : CtxFrame) (ctx : Ctx) (path : String) (e : Entry)
    (hm : f.matchers = []) :
    shouldIncludeByName (f :: ctx) path e = shouldIncludeByName ctx path e := by
  simp [shouldIncludeByName, hm]

theorem filterEntries_cons_inert (f : CtxFrame) (ctx : Ctx) (relPath : String)
    (es : List Entry) (hm : f.matchers = []) (hs : f.maxFileSize = headMaxFileSize ctx) :
    filterEntries (f :: ctx) relPath es = filterEntries ctx relPath es := by
  induction es with
  | nil => rfl
  | cons e rest ih =>
    simp only [filterEntries, shouldInclude_cons_empty f ctx _ e hm, ih,
      headMaxFileSize_cons, hs]

theorem loadDotIgnoreFiles_absent (parseGI : String → String → Except String Matcher)
    (dirPath : String) (entries : List Entry) (dfs : List String) (c : CtxFrame)
    (habs : ∀ df ∈ dfs, entries.find? (fun e => e.name == df) = none) :
    loadDotIgnoreFiles parseGI dirPath entries dfs c = .ok c := by
  induction dfs with
  | nil => rfl
  | cons df rest ih =>
    have hdf : entries.find? (fun e => e.name == df) = none :=
      habs df (List.mem_cons_self df rest)
    simp only [loadDotIgnoreFiles, hdf]
    exact ih (fun d hd => habs d (List.mem_cons_of_mem df hd))

/-- C6: when the current directory has no applicable policy and none of the
effective dotfile names appear in its listing, `buildContext` reuses the
parent context, and the reused context admits and rejects exactly the same
entries, with the same callback invocations, as the fresh child context that
would otherwise have been constructed. -/
theorem ignore_reuse_parent_equiv (parseGI : String → String → Except String Matcher)
    (getter : String → Option FilesPolicy) (parentCtx : Ctx)
    (relPath : String) (entries : List Entry)
    (hpol : getter relPath = none)
    (hdot : ∀ df ∈ headDotFiles parentCtx,
      entries.find? (fun e => e.name == df) = none) :
    buildContext parseGI getter parentCtx relPath entries = .ok parentCtx ∧
    buildContextNoReuse parseGI getter parentCtx relPath entries =
      .ok ({ onIgnore := headOnIgnore parentCtx
             dotIgnoreFiles := headDotFiles parentCtx
             matchers := []
             maxFileSize := headMaxFileSize parentCtx } :: parentCtx) ∧
    ∀ ctx2, buildContextNoReuse parseGI getter parentCtx relPath entries = .ok ctx2 →
      filterEntries ctx2 relPath entries = filterEntries parentCtx relPath entries := by
  have hany : (headDotFiles parentCtx).any
      (fun df => (entries.find? (fun e => e.name == df)).isSome) = false := by
    rw [List.any_eq_false]
    intro df hdf
    rw [hdot df hdf]
    simp
  have hfresh : buildContextNoReuse parseGI getter parentCtx relPath entries =
      .ok ({ onIgnore := headOnIgnore parentCtx
             dotIgnoreFiles := headDotFiles parentCtx
             matchers := []
             maxFileSize := headMaxFileSize parentCtx } :: parentCtx) := by
    rw [buildContextNoReuse]
    simp only [hpol]
    rw [loadDotIgnoreFiles_absent parseGI relPath entries (headDotFiles parentCtx) _ hdot]
  refine ⟨?_, hfresh, ?_⟩
  · rw [buildContext]
    simp only [hpol, hany]
    rfl
  · intro ctx2 h2
    rw [hfresh, Except.ok.injEq] at h2
    subst h2
    exact filterEntries_cons_inert _ parentCtx relPath entries rfl rfl

/-- A parent-context matcher for the reuse witness. -/
def c6Matcher : Matcher := fun path _ => path == "./d/skip"

/-- A parent context frame with a callback, a dotfile name and a matcher. -/
def c6Frame : CtxFrame :=
  { onIgnore := [7], dotIgnoreFiles := [".kopiaignore"], matchers := [c6Matcher]
    maxFileSize := 0 }

/-- An entry the parent rule keeps. -/
def c6Keep : Entry := { name := "keep", kind := .file, size := 1, openErr := none, lines := [] }

/-- An entry the parent rule ignores. -/
def c6Skip : Entry := { name := "skip", kind := .file, size := 2, openErr := none, lines := [] }

/-- The fresh child frame the no-reuse construction yields for `c6Frame`. -/
def c6Fresh : CtxFrame :=
  { onIgnore := [7], dotIgnoreFiles := [".kopiaignore"], matchers := [], maxFileSize := 0 }

theorem ignore_reuse_parent_equiv_witness :
    buildContext c4Parse (fun _ => none) [c6Frame] "./d" [c6Keep, c6Skip] = .ok [c6Frame] ∧
    filterEntries (c6Fresh :: [c6Frame]) "./d" [c6Keep, c6Skip] =
      filterEntries [c6Frame] "./d" [c6Keep, c6Skip] := by
  have h := ignore_reuse_parent_equiv c4Parse (fun _ => none) [c6Frame] "./d"
    [c6Keep, c6Skip] rfl (by decide)
  exact ⟨h.1, h.2.2 _ h.2.1⟩

end IgnoreFS

/-!
## The incremental uploader (`src/unnamed/part_000`, package `dir`)

`ObjectID` is an opaque content identifier; Go uses a string whose empty value
is the null id, modelled as `Option Nat` with `none` for `""`.  The CAS object
manager is external: a directory writer's finalized id is an abstract function
of the serialized listing (content addressing), and opening a previously
written directory object returns the listing it serialized.  The `Listing`,
`ReadDir`/`WriteDir` and `metadataEquals` helpers of package `dir` are not
under `src/` and are modelled from the spec where noted.
-/

namespace Upload

/-- `dir.EntryType`, as far as `UploadDir` distinguishes it. -/
inductive EntryType where
  | file
  | directory
  | symlink
  | other
  deriving DecidableEq, Repr

/-- Modelled from the spec: the metadata fields a `DirEntry` carries — name,
type, size, mode bits, modification time, owner. -/
structure Meta where
  name : String
  entryType : EntryType
  size : Int
  mode : Nat
  modTime : Int
  ownerUID : Nat
  ownerGID : Nat
  deriving DecidableEq, Repr

/-- Modelled from the spec: a directory-listing entry is its metadata plus —
once known — an object id. -/
structure DirEntry where
  meta : Meta
  oid : Option Nat
  deriving DecidableEq, Repr

/-- `dir.Listing`: an ordered sequence of entries. -/
abbrev Listing := List DirEntry

/-- A source tree as the filesystem `Lister` reports it: each node carries the
metadata its parent's listing shows and its child nodes.  `UploadDir` recurses
into a node's children exactly when its reported type is `directory`. -/
inductive FSNode where
  | node (meta : Meta) (children : List FSNode)

/-- The metadata of a node. -/
def FSNode.meta : FSNode → Meta
  | node m _ => m

/-- The children of a node. -/
def FSNode.children : FSNode → List FSNode
  | node _ cs => cs

/-- External CAS interface: `hashDir L` is the finalized id of a directory
writer that serialized `L` (content addressing), `uploadFileOid p` the id
`UploadFile` produces for the file at path `p` on the unchanged disk. -/
structure UpEnv where
  hashDir : Listing → Nat
  uploadFileOid : String → Nat

/-- The directory objects the CAS holds: id ↦ serialized listing, most recent
write first. -/
abbrev Store := List (Nat × Listing)

/-- Modelled from the spec: `ReadDir(mgr.Open(id))` returns the listing whose
serialization was written under `id`. -/
def lookupStore (s : Store) (k : Nat) : Option Listing :=
  (s.find? (fun p => p.1 == k)).map (fun p => p.2)

/-- Modelled from the spec: `metadata_matches = cached_entry ≠ ∅ ∧ type, size,
mode, mtime and owner all equal`. -/
def metadataEquals (m : Meta) (ce : Option DirEntry) : Bool :=
  match ce with
  | none => false
  | some c =>
    m.entryType == c.meta.entryType && m.size == c.meta.size && m.mode == c.meta.mode &&
      m.modTime == c.meta.modTime && m.ownerUID == c.meta.ownerUID &&
      m.ownerGID == c.meta.ownerGID

/-- Modelled from the spec: `Listing.FindEntryName` locates the cached entry
with the given name. -/
def findEntryName (l : Listing) (n : String) : Option DirEntry :=
  l.find? (fun e => e.meta.name == n)

/-- The cached listing `UploadDir` works against: empty for a null `previous`
id, otherwise the listing stored under it (empty again when absent or
unreadable — a warning, not an abort). -/
def cachedListing (s : Store) (previous : Option Nat) : Listing :=
  match previous with
  | none => []
  | some p => (lookupStore s p).getD []

/-- What one `UploadDir` call returns and leaves behind: its object id, the
directory store afterwards, and the ids of the `DIR:` objects it wrote. -/
structure DirResult where
  oid : Option Nat
  store : Store
  writes : List Nat
  deriving DecidableEq, Repr

/-- The state of the entry loop of `UploadDir`: entries with assigned ids, the
store, the `DIR:` writes of recursive calls, and `directoryMatchesCache`. -/
structure LoopResult where
  entries : Listing
  store : Store
  writes : List Nat
  dmc : Bool
  deriving DecidableEq, Repr

mutual

/-- `uploader.UploadDir` for an uncancelled uploader: read the cached listing
of `previous` (absent or unreadable means empty), run the entry loop starting
from `directoryMatchesCache = (len(cached) == len(listing))`, and either
return `previous` unchanged (cache hit) or write the new listing and return
its id. -/
def uploadDir (env : UpEnv) (s : Store) : FSNode → String → Option Nat → DirResult
  | .node _ cs, path, previous =>
    let cached := cachedListing s previous
    let r := uploadEntries env s cs path cached (cached.length == cs.length)
    if r.dmc && previous.isSome then
      ⟨previous, r.store, r.writes⟩
    else
      ⟨some (env.hashDir r.entries), (env.hashDir r.entries, r.entries) :: r.store,
        r.writes ++ [env.hashDir r.entries]⟩

/-- The entry loop of `UploadDir`: per entry, find the cached entry by name,
compare metadata, and either recurse (directories), reuse the cached id
(metadata match) or upload the file. -/
def uploadEntries (env : UpEnv) (s : Store) :
    List FSNode → String → Listing → Bool → LoopResult
  | [], _, _, dmc => ⟨[], s, [], dmc⟩
  | c :: rest, path, cached, dmc =>
    let m := c.meta
    let cachedEntry := findEntryName cached m.name
    let mdMatch := metadataEquals m cachedEntry
    let dmc1 := dmc && mdMatch
    if m.entryType == .directory then
      let prevSub : Option Nat :=
        match cachedEntry with
        | some ce => ce.oid
        | none => none
      let rc := uploadDir env s c (path ++ "/" ++ m.name) prevSub
      let dmc2 :=
        match cachedEntry with
        | some ce => if rc.oid != ce.oid then false else dmc1
        | none => dmc1
      let rr := uploadEntries env rc.store rest path cached dmc2
      ⟨⟨m, rc.oid⟩ :: rr.entries, rr.store, rc.writes ++ rr.writes, rr.dmc⟩
    else if mdMatch then
      let rr := uploadEntries env s rest path cached dmc1
      ⟨⟨m, (cachedEntry.map (fun ce => ce.oid)).getD none⟩ :: rr.entries, rr.store,
        rr.writes, rr.dmc⟩
    else
      let rr := uploadEntries env s rest path cached dmc1
      ⟨⟨m, some (env.uploadFileOid (path ++ "/" ++ m.name))⟩ :: rr.entries, rr.store,
        rr.writes, rr.dmc⟩

end

end Upload

namespace Upload

/-- A file as `os.Open` + `io.Copy` observe it: whether opening fails, the
bytes readable before any error, and the read error hit after them (if any). -/
structure GoFile where
  openErr : Option String
  content : List Nat
  readErr : Option String
  deriving DecidableEq, Repr

/-- `uploader.UploadFile`: open the file, copy its bytes into a CAS writer for
`FILE:<path>`, and finalize.  The source discards both results of
`io.Copy(writer, file)`, so a read error after `f.content` has streamed never
reaches the return value: the finalized id commits to the copied bytes only.
`writer.Result(false)` is the external CAS finalize, `hashFile` here. -/
def uploadFile (hashFile : List Nat → Nat) (f : GoFile) (path : String) :
    Except String Nat :=
  match f.openErr with
  | some e => .error ("unable to open file " ++ path ++ ": " ++ e)
  | none => .ok (hashFile f.content)

/-- C10: For every file that opens successfully, `UploadFile` ignores any
error from copying the file's bytes into the CAS writer: a read failure
partway through the stream does not make `UploadFile` return an error, and the
returned id commits to exactly the bytes copied before the failure. -/
theorem uploadFile_ignores_copy_error (hashFile : List Nat → Nat) (f : GoFile)
    (path e : String) (hopen : f.openErr = none) (hread : f.readErr = some e) :
    uploadFile hashFile f path = .ok (hashFile f.content) := by
  simp [uploadFile, hopen]

theorem uploadFile_ignores_copy_error_witness :
    uploadFile (fun l => l.length) ⟨none, [1, 2, 3], some "read failed"⟩ "/tmp/x" =
      .ok 3 :=
  uploadFile_ignores_copy_error (fun l => l.length)
    ⟨none, [1, 2, 3], some "read failed"⟩ "/tmp/x" "read failed" rfl rfl

end Upload

namespace Upload

/-- Tree induction for `FSNode` with the child hypothesis quantified over
membership. -/
theorem FSNode.inductionOn {P : FSNode → Prop}
    (h : ∀ m cs, (∀ c ∈ cs, P c) → P (FSNode.node m cs)) : ∀ t, P t
  | .node m cs => h m cs (fun c hc => FSNode.inductionOn h c)
termination_by t => sizeOf t
decreasing_by
  have := List.sizeOf_lt_of_mem hc
  simp only [FSNode.node.sizeOf_spec]
  omega

/-- Every directory listing of the tree has pairwise distinct entry names, as
filesystem listings do. -/
inductive NodupNames : FSNode → Prop where
  | mk (m : Meta) (cs : List FSNode) :
      (cs.map (fun c => c.meta.name)).Nodup →
      (∀ c ∈ cs, NodupNames c) →
      NodupNames (FSNode.node m cs)

theorem NodupNames.names {m : Meta} {cs : List FSNode}
    (h : NodupNames (FSNode.node m cs)) : (cs.map (fun c => c.meta.name)).Nodup := by
  cases h; assumption

theorem NodupNames.child {m : Meta} {cs : List FSNode}
    (h : NodupNames (FSNode.node m cs)) : ∀ c ∈ cs, NodupNames c := by
  cases h; assumption

/-- The store is content-addressed: every pair maps the hash of its listing. -/
def WFStore (env : UpEnv) (s : Store) : Prop :=
  ∀ p ∈ s, p.1 = env.hashDir p.2

/-- Containment of stores (writes are never dropped). -/
def StoreLe (s s2 : Store) : Prop :=
  ∀ p ∈ s, p ∈ s2

theorem StoreLe.refl (s : Store) : StoreLe s s := fun _ hp => hp

theorem StoreLe.trans {a b c : Store} (h1 : StoreLe a b) (h2 : StoreLe b c) :
    StoreLe a c := fun p hp => h2 p (h1 p hp)

/-- In a well-formed store, looking up the hash of a listing that the store
contains returns that listing, whatever else was written. -/
theorem lookupStore_of_mem (env : UpEnv) (hinj : Function.Injective env.hashDir)
    (s : Store) (L : Listing) (hwf : WFStore env s)
    (hmem : (env.hashDir L, L) ∈ s) :
    lookupStore s (env.hashDir L) = some L := by
  induction s with
  | nil => cases hmem
  | cons p rest ih =>
    by_cases hk : p.1 = env.hashDir L
    · have hwfp : p.1 = env.hashDir p.2 := hwf p (List.mem_cons_self p rest)
      have hpl : p.2 = L := hinj (by rw [← hwfp, hk])
      rw [lookupStore, List.find?_cons_of_pos _ (by simp [hk])]
      simp [hpl]
    · have hmem2 : (env.hashDir L, L) ∈ rest := by
        rcases List.mem_cons.mp hmem with h | h
        · exact absurd (congrArg Prod.fst h.symm) hk
        · exact h
      have htail := ih (fun q hq => hwf q (List.mem_cons_of_mem p hq)) hmem2
      rw [lookupStore, List.find?_cons_of_neg _ (by simp [hk])]
      exact htail

end Upload

namespace Upload

/-- The incremental-reuse property of one subtree: a fresh upload from any
well-formed store leaves a well-formed, larger store, and — from any store
containing its writes — re-uploading against the returned id returns that id
with no store change and no directory writes. -/
def ChildProp (env : UpEnv) (t : FSNode) : Prop :=
  ∀ path s, WFStore env s →
    WFStore env (uploadDir env s t path none).store ∧
    StoreLe s (uploadDir env s t path none).store ∧
    (∀ s2, WFStore env s2 → StoreLe (uploadDir env s t path none).store s2 →
      uploadDir env s2 t path (uploadDir env s t path none).oid =
        ⟨(uploadDir env s t path none).oid, s2, []⟩)

/-- Relation between a child node and the listing entry the fresh entry loop
produced for it: same metadata, and for directories the entry's id
short-circuits re-upload from any store containing the loop's writes. -/
def EntryRel (env : UpEnv) (path : String) (sFinal : Store)
    (c : FSNode) (e : DirEntry) : Prop :=
  e.meta = c.meta ∧
  ((c.meta.entryType == EntryType.directory) = true →
    ∀ s2, WFStore env s2 → StoreLe sFinal s2 →
      uploadDir env s2 c (path ++ "/" ++ c.meta.name) e.oid = ⟨e.oid, s2, []⟩)

theorem uploadEntries_cons_dir (env : UpEnv) (s : Store) (c : FSNode)
    (rest : List FSNode) (path : String) (dmc : Bool)
    (hdir : (c.meta.entryType == EntryType.directory) = true) :
    uploadEntries env s (c :: rest) path [] dmc =
      ⟨⟨c.meta, (uploadDir env s c (path ++ "/" ++ c.meta.name) none).oid⟩ ::
          (uploadEntries env (uploadDir env s c (path ++ "/" ++ c.meta.name) none).store
            rest path [] (dmc && false)).entries,
        (uploadEntries env (uploadDir env s c (path ++ "/" ++ c.meta.name) none).store
          rest path [] (dmc && false)).store,
        (uploadDir env s c (path ++ "/" ++ c.meta.name) none).writes ++
          (uploadEntries env (uploadDir env s c (path ++ "/" ++ c.meta.name) none).store
            rest path [] (dmc && false)).writes,
        (uploadEntries env (uploadDir env s c (path ++ "/" ++ c.meta.name) none).store
          rest path [] (dmc && false)).dmc⟩ := by
  simp only [uploadEntries, findEntryName, List.find?_nil, metadataEquals, hdir, if_true]

theorem uploadEntries_cons_nondir (env : UpEnv) (s : Store) (c : FSNode)
    (rest : List FSNode) (path : String) (dmc : Bool)
    (hdir : (c.meta.entryType == EntryType.directory) = false) :
    uploadEntries env s (c :: rest) path [] dmc =
      ⟨⟨c.meta, some (env.uploadFileOid (path ++ "/" ++ c.meta.name))⟩ ::
          (uploadEntries env s rest path [] (dmc && false)).entries,
        (uploadEntries env s rest path [] (dmc && false)).store,
        (uploadEntries env s rest path [] (dmc && false)).writes,
        (uploadEntries env s rest path [] (dmc && false)).dmc⟩ := by
  simp only [uploadEntries, findEntryName, List.find?_nil, metadataEquals, hdir]
  simp

/-- The fresh entry loop (empty cached listing): the store stays well-formed
and only grows, and each produced entry is `EntryRel`-related to its node. -/
theorem uploadEntries_fresh (env : UpEnv) (cs : List FSNode) :
    ∀ (path : String) (s : Store) (dmc0 : Bool),
      WFStore env s →
      (∀ c ∈ cs, ChildProp env c) →
      WFStore env (uploadEntries env s cs path [] dmc0).store ∧
      StoreLe s (uploadEntries env s cs path [] dmc0).store ∧
      List.Forall₂ (EntryRel env path (uploadEntries env s cs path [] dmc0).store) cs
        (uploadEntries env s cs path [] dmc0).entries := by
  induction cs with
  | nil =>
    intro path s dmc0 hwf _
    exact ⟨hwf, StoreLe.refl s, List.Forall₂.nil⟩
  | cons c rest ih =>
    intro path s dmc0 hwf hcp
    have hcpc := hcp c (List.mem_cons_self c rest)
    have hcprest : ∀ d ∈ rest, ChildProp env d :=
      fun d hd => hcp d (List.mem_cons_of_mem c hd)
    by_cases hdir : (c.meta.entryType == EntryType.directory) = true
    · rw [uploadEntries_cons_dir env s c rest path dmc0 hdir]
      obtain ⟨hwfc, hlec, hreuse⟩ := hcpc (path ++ "/" ++ c.meta.name) s hwf
      obtain ⟨hwfr, hler, hfar⟩ :=
        ih path (uploadDir env s c (path ++ "/" ++ c.meta.name) none).store
          (dmc0 && false) hwfc hcprest
      refine ⟨hwfr, hlec.trans hler, List.Forall₂.cons ⟨rfl, ?_⟩ hfar⟩
      intro _ s2 hwf2 hle2
      exact hreuse s2 hwf2 (hler.trans hle2)
    · rw [uploadEntries_cons_nondir env s c rest path dmc0 (by simpa using hdir)]
      obtain ⟨hwfr, hler, hfar⟩ := ih path s (dmc0 && false) hwf hcprest
      exact ⟨hwfr, hler, List.Forall₂.cons ⟨rfl, fun hd => absurd hd hdir⟩ hfar⟩

end Upload

namespace Upload

theorem metadataEquals_of_meta_eq (m : Meta) (e : DirEntry) (h : e.meta = m) :
    metadataEquals m (some e) = true := by
  simp [metadataEquals, h]

/-- In a listing positionally related to a node list with pairwise distinct
names, `FindEntryName` returns exactly the related entry. -/
theorem findEntry_forall₂ {R : FSNode → DirEntry → Prop}
    (hmeta : ∀ c e, R c e → e.meta = c.meta) :
    ∀ {cs : List FSNode} {E : Listing}, List.Forall₂ R cs E →
      (cs.map (fun c => c.meta.name)).Nodup →
      ∀ c ∈ cs, ∃ e, findEntryName E c.meta.name = some e ∧ R c e := by
  intro cs E h
  induction h with
  | nil => intro _ c hc; cases hc
  | @cons c0 e0 csr Er hR hrest ih =>
    intro hn c hc
    rcases List.mem_cons.mp hc with rfl | hc2
    · refine ⟨e0, ?_, hR⟩
      have hbt : (e0.meta.name == c.meta.name) = true := by
        simp [hmeta c e0 hR]
      rw [findEntryName]
      simp only [List.find?, hbt]
    · have hbf : (e0.meta.name == c.meta.name) = false := by
        rw [hmeta c0 e0 hR]
        simp only [beq_eq_false_iff_ne, ne_eq]
        intro he
        have h0 : c0.meta.name ∉ csr.map (fun d => d.meta.name) := (List.nodup_cons.mp hn).1
        refine h0 ?_
        rw [he]
        exact List.mem_map_of_mem _ hc2
      obtain ⟨e, hfind, hRe⟩ := ih (List.nodup_cons.mp hn).2 c hc2
      refine ⟨e, ?_, hRe⟩
      rw [findEntryName]
      simp only [List.find?, hbf]
      exact hfind

/-- The entry loop against a cached listing that matches the tree: every entry
is found by name with identical metadata, directory entries short-circuit, so
the loop changes nothing — same store, no writes, `directoryMatchesCache`
preserved. -/
theorem uploadEntries_cached (env : UpEnv) (cs : List FSNode) :
    ∀ (path : String) (s2 : Store) (cached : Listing) (dmcIn : Bool),
      (∀ c ∈ cs, ∃ e, findEntryName cached c.meta.name = some e ∧ e.meta = c.meta ∧
        ((c.meta.entryType == EntryType.directory) = true →
          uploadDir env s2 c (path ++ "/" ++ c.meta.name) e.oid = ⟨e.oid, s2, []⟩)) →
      ∃ E2, uploadEntries env s2 cs path cached dmcIn = ⟨E2, s2, [], dmcIn⟩ := by
  induction cs with
  | nil => intro path s2 cached dmcIn _; exact ⟨[], rfl⟩
  | cons c rest ih =>
    intro path s2 cached dmcIn hH
    obtain ⟨e, hfind, hmeta, hdirclause⟩ := hH c (List.mem_cons_self c rest)
    obtain ⟨E2r, hrest⟩ := ih path s2 cached dmcIn
      (fun d hd => hH d (List.mem_cons_of_mem c hd))
    by_cases hdir : (c.meta.entryType == EntryType.directory) = true
    · have hrc := hdirclause hdir
      refine ⟨⟨c.meta, e.oid⟩ :: E2r, ?_⟩
      simp only [uploadEntries, hfind, metadataEquals_of_meta_eq c.meta e hmeta,
        Bool.and_true, hdir, if_true, hrc, bne_self_eq_false, Bool.false_eq_true,
        if_false, hrest, List.nil_append]
    · have hdf : (c.meta.entryType == EntryType.directory) = false := by
        simpa using hdir
      refine ⟨⟨c.meta, e.oid⟩ :: E2r, ?_⟩
      simp only [uploadEntries, hfind, metadataEquals_of_meta_eq c.meta e hmeta,
        Bool.and_true, hdf, Bool.false_eq_true, if_false, if_true, hrest]
      simp

end Upload

namespace Upload

theorem uploadDir_none (env : UpEnv) (s : Store) (m : Meta) (cs : List FSNode)
    (path : String) :
    uploadDir env s (FSNode.node m cs) path none =
      ⟨some (env.hashDir (uploadEntries env s cs path [] (0 == cs.length)).entries),
        (env.hashDir (uploadEntries env s cs path [] (0 == cs.length)).entries,
          (uploadEntries env s cs path [] (0 == cs.length)).entries) ::
          (uploadEntries env s cs path [] (0 == cs.length)).store,
        (uploadEntries env s cs path [] (0 == cs.length)).writes ++
          [env.hashDir (uploadEntries env s cs path [] (0 == cs.length)).entries]⟩ := by
  simp only [uploadDir, cachedListing, List.length_nil, Option.isSome_none,
    Bool.and_false, Bool.false_eq_true, if_false]

/-- Every subtree with distinct entry names satisfies the incremental-reuse
property, provided the directory hash is collision-free. -/
theorem uploadDir_childProp (env : UpEnv) (hinj : Function.Injective env.hashDir) :
    ∀ t, NodupNames t → ChildProp env t := by
  intro t
  refine FSNode.inductionOn (P := fun t => NodupNames t → ChildProp env t) ?_ t
  intro m cs hIH hnn path s hwf
  have hcs : ∀ c ∈ cs, ChildProp env c := fun c hc => hIH c hc (hnn.child c hc)
  obtain ⟨hwfu, hleu, hfau⟩ := uploadEntries_fresh env cs path s (0 == cs.length) hwf hcs
  rw [uploadDir_none env s m cs path]
  dsimp only
  refine ⟨?_, ?_, ?_⟩
  · intro p hp
    rcases List.mem_cons.mp hp with rfl | hp2
    · rfl
    · exact hwfu p hp2
  · intro p hp
    exact List.mem_cons_of_mem _ (hleu p hp)
  · intro s2 hwf2 hle2
    set u := uploadEntries env s cs path [] (0 == cs.length) with hu
    have hmem : (env.hashDir u.entries, u.entries) ∈ s2 :=
      hle2 _ (List.mem_cons_self _ _)
    have hlook : lookupStore s2 (env.hashDir u.entries) = some u.entries :=
      lookupStore_of_mem env hinj s2 u.entries hwf2 hmem
    have hsle : StoreLe u.store s2 := fun p hp => hle2 p (List.mem_cons_of_mem _ hp)
    have hHyp : ∀ c ∈ cs, ∃ e, findEntryName u.entries c.meta.name = some e ∧
        e.meta = c.meta ∧
        ((c.meta.entryType == EntryType.directory) = true →
          uploadDir env s2 c (path ++ "/" ++ c.meta.name) e.oid = ⟨e.oid, s2, []⟩) := by
      intro c hc
      obtain ⟨e, hfind, hRe⟩ :=
        findEntry_forall₂ (fun c e hr => hr.1) hfau hnn.names c hc
      exact ⟨e, hfind, hRe.1, fun hdir => hRe.2 hdir s2 hwf2 hsle⟩
    obtain ⟨E2, hrun2⟩ := uploadEntries_cached env cs path s2 u.entries
      (u.entries.length == cs.length) hHyp
    have hlen : cs.length = u.entries.length := hfau.length_eq
    have hbeq : (u.entries.length == cs.length) = true := by
      simp [hlen]
    rw [hbeq] at hrun2
    simp only [uploadDir, cachedListing, hlook, Option.getD_some, hbeq, hrun2,
      Option.isSome_some, Bool.and_self, if_true]

/-- C5: whenever `directory_matches_cache` holds at the end of the entry loop
and `previous` is non-null, `UploadDir` returns `previous` without opening a
`DIR:` writer; consequently, for every tree with pairwise distinct entry names
and collision-free directory hashing, re-uploading with the previous root as
cache returns exactly the previous id, leaves the store unchanged and writes
no new directory object: `upload_dir(T, upload_dir(T, null)) =
upload_dir(T, null)`. -/
theorem uploadDir_unchanged_idempotent (env : UpEnv) (t : FSNode) (path : String)
    (s : Store) (hinj : Function.Injective env.hashDir) (hnn : NodupNames t)
    (hwf : WFStore env s) :
    (∀ (s0 : Store) (m : Meta) (cs : List FSNode) (p : Nat),
      (uploadEntries env s0 cs path (cachedListing s0 (some p))
        ((cachedListing s0 (some p)).length == cs.length)).dmc = true →
      uploadDir env s0 (FSNode.node m cs) path (some p) =
        ⟨some p,
         (uploadEntries env s0 cs path (cachedListing s0 (some p))
           ((cachedListing s0 (some p)).length == cs.length)).store,
         (uploadEntries env s0 cs path (cachedListing s0 (some p))
           ((cachedListing s0 (some p)).length == cs.length)).writes⟩) ∧
    uploadDir env (uploadDir env s t path none).store t path
        (uploadDir env s t path none).oid =
      ⟨(uploadDir env s t path none).oid, (uploadDir env s t path none).store, []⟩ := by
  constructor
  · intro s0 m cs p hdmc
    simp only [uploadDir, hdmc, Option.isSome_some, Bool.and_self, if_true]
  · obtain ⟨hwfr, hler, hreuse⟩ := uploadDir_childProp env hinj t hnn path s hwf
    exact hreuse (uploadDir env s t path none).store hwfr (StoreLe.refl _)

end Upload

namespace Upload

/-! ### A concrete collision-free directory hash for witnesses

An injective encoding of listings into `Nat`, standing in for an ideal
collision-free content hash. -/

/-- A character as its code point. -/
def natOfChar (c : Char) : Nat := c.toNat

theorem natOfChar_injective : Function.Injective natOfChar := by
  intro a b h
  have h2 := congrArg Char.ofNat h
  simpa [natOfChar, Char.ofNat_toNat] using h2

/-- Injectively encode a list through an encoding of its elements. -/
def encList {α : Type} (f : α → Nat) : List α → Nat
  | [] => 0
  | a :: r => Nat.pair (f a) (encList f r) + 1

theorem encList_injective {α : Type} (f : α → Nat) (hf : Function.Injective f) :
    Function.Injective (encList f) := by
  intro x
  induction x with
  | nil =>
    intro y h
    cases y with
    | nil => rfl
    | cons b r => simp [encList] at h
  | cons a r ih =>
    intro y h
    cases y with
    | nil => simp [encList] at h
    | cons b r2 =>
      simp only [encList] at h
      have h2 := Nat.add_right_cancel h
      obtain ⟨h3, h4⟩ := Nat.pair_eq_pair.mp h2
      rw [hf h3, ih h4]

/-- A string as an injectively encoded number. -/
def encString (s : String) : Nat := encList natOfChar s.data

theorem encString_injective : Function.Injective encString := by
  intro a b h
  have h2 := encList_injective natOfChar natOfChar_injective h
  exact congrArg String.mk h2

/-- An integer as a number, parity-coded. -/
def encInt : Int → Nat
  | .ofNat n => 2 * n
  | .negSucc n => 2 * n + 1

theorem encInt_injective : Function.Injective encInt := by
  intro a b h
  cases a with
  | ofNat m =>
    cases b with
    | ofNat n =>
      simp only [encInt] at h
      simp only [Int.ofNat.injEq]
      omega
    | negSucc n =>
      simp only [encInt] at h
      omega
  | negSucc m =>
    cases b with
    | ofNat n =>
      simp only [encInt] at h
      omega
    | negSucc n =>
      simp only [encInt] at h
      simp only [Int.negSucc.injEq]
      omega

/-- An entry type as a small number. -/
def encEntryType : EntryType → Nat
  | .file => 0
  | .directory => 1
  | .symlink => 2
  | .other => 3

theorem encEntryType_injective : Function.Injective encEntryType := by
  intro a b h
  cases a <;> cases b <;> first | rfl | simp [encEntryType] at h

/-- An optional id as a number. -/
def encOption : Option Nat → Nat
  | none => 0
  | some n => n + 1

theorem encOption_injective : Function.Injective encOption := by
  intro a b h
  cases a <;> cases b <;> simp [encOption] at h <;> simp [h]

/-- Metadata as an injectively paired number. -/
def encMeta (m : Meta) : Nat :=
  Nat.pair (encString m.name) (Nat.pair (encEntryType m.entryType)
    (Nat.pair (encInt m.size) (Nat.pair m.mode (Nat.pair (encInt m.modTime)
      (Nat.pair m.ownerUID m.ownerGID)))))

theorem encMeta_injective : Function.Injective encMeta := by
  intro a b h
  simp only [encMeta] at h
  obtain ⟨h1, h2⟩ := Nat.pair_eq_pair.mp h
  obtain ⟨h3, h4⟩ := Nat.pair_eq_pair.mp h2
  obtain ⟨h5, h6⟩ := Nat.pair_eq_pair.mp h4
  obtain ⟨h7, h8⟩ := Nat.pair_eq_pair.mp h6
  obtain ⟨h9, h10⟩ := Nat.pair_eq_pair.mp h8
  obtain ⟨h11, h12⟩ := Nat.pair_eq_pair.mp h10
  cases a
  cases b
  simp only at h1 h3 h5 h7 h9 h11 h12
  simp only [Meta.mk.injEq]
  exact ⟨encString_injective h1, encEntryType_injective h3, encInt_injective h5, h7,
    encInt_injective h9, h11, h12⟩

/-- A listing entry as an injectively paired number. -/
def encDirEntry (e : DirEntry) : Nat := Nat.pair (encMeta e.meta) (encOption e.oid)

theorem encDirEntry_injective : Function.Injective encDirEntry := by
  intro a b h
  obtain ⟨h1, h2⟩ := Nat.pair_eq_pair.mp h
  cases a
  cases b
  simp only at h1 h2
  simp only [DirEntry.mk.injEq]
  exact ⟨encMeta_injective h1, encOption_injective h2⟩

/-- A listing as an injectively encoded number: an ideal collision-free
directory hash. -/
def encListing : Listing → Nat := encList encDirEntry

theorem encListing_injective : Function.Injective encListing :=
  encList_injective encDirEntry encDirEntry_injective

/-- Witness environment: ideal directory hashing, constant file ids. -/
def envW : UpEnv := { hashDir := encListing, uploadFileOid := fun _ => 0 }

/-- Metadata of the witness file. -/
def fileMetaW : Meta :=
  { name := "file1", entryType := .file, size := 100, mode := 420, modTime := 5
    ownerUID := 1000, ownerGID := 1000 }

/-- Metadata of the witness subdirectory. -/
def subMetaW : Meta :=
  { name := "sub", entryType := .directory, size := 0, mode := 493, modTime := 6
    ownerUID := 1000, ownerGID := 1000 }

/-- Metadata of the witness root. -/
def rootMetaW : Meta :=
  { name := ".", entryType := .directory, size := 0, mode := 493, modTime := 7
    ownerUID := 1000, ownerGID := 1000 }

/-- The witness tree: a root with one file and one empty subdirectory. -/
def treeW : FSNode := .node rootMetaW [.node fileMetaW [], .node subMetaW []]

theorem treeW_nodupNames : NodupNames treeW := by
  refine NodupNames.mk _ _ (by decide) ?_
  intro c hc
  simp only [List.mem_cons, List.not_mem_nil, or_false] at hc
  rcases hc with rfl | rfl
  · exact NodupNames.mk _ _ (by simp) (by intro d hd; exact absurd hd (List.not_mem_nil d))
  · exact NodupNames.mk _ _ (by simp) (by intro d hd; exact absurd hd (List.not_mem_nil d))

theorem uploadDir_unchanged_idempotent_witness :
    uploadDir envW (uploadDir envW [] treeW "." none).store treeW "."
        (uploadDir envW [] treeW "." none).oid =
      ⟨(uploadDir envW [] treeW "." none).oid,
       (uploadDir envW [] treeW "." none).store, []⟩ :=
  (uploadDir_unchanged_idempotent envW treeW "." [] encListing_injective
    treeW_nodupNames (fun p hp => absurd hp (List.not_mem_nil p))).2

end Upload
